import Mathlib

/-!
Verification of the synchronization control core of a file-synchronization
agent (the `Controller` module `nxdrive/controller.py`).

The embedding models the persistent store as plain Lean lists of records:
a table of `ServerBinding`s, a table of `RootBinding`s and a table of
`LastKnownState` pair states.  SQL queries become list filters, `ORDER BY`
becomes an executable insertion sort on the corresponding key (with SQL
`NULL`s, i.e. `Option.none`, sorting first, as in SQLite ascending order),
and `LIMIT` becomes `List.take`.  Python exceptions become `Except` values.

Filesystem paths are taken in already-normalized form: `normalized_path`
(home expansion plus canonicalization) lives in a utility module outside the
controller, and every controller operation applies it to its path arguments
before doing anything else, so the embedded operations receive the
normalized strings directly.  The OS path separator is a `Char` parameter.
Wall-clock time (`datetime.now()`) is an integer parameter `now` measured in
seconds, so `datetime.now() - timedelta(seconds=d)` is `now - d`.
-/

namespace NxDrive

/-- A pair state row (`LastKnownState` in the model layer): one record per
logical document, unifying its local and remote incarnations. -/
structure LastKnownState where
  local_folder : String
  local_root : String
  path : Option String
  parent_path : Option String
  local_name : Option String
  remote_ref : Option String
  remote_parent_ref : Option String
  remote_name : Option String
  remote_path : Option String
  folderish : Bool
  pair_state : String
  last_sync_error_date : Option Int
  deriving DecidableEq, Repr

/-- A server binding row: one per local folder bound to a remote server. -/
structure ServerBinding where
  local_folder : String
  server_url : String
  remote_user : String
  remote_password : Option String
  remote_token : Option String
  deriving DecidableEq, Repr

/-- A root binding row: one per local root folder under a server binding. -/
structure RootBinding where
  local_root : String
  remote_repo : String
  remote_root : String
  deriving DecidableEq, Repr

/-- The remote document info returned by the remote client for a root
(`uid`, `name`, `folderish` are the fields the controller reads). -/
structure RemoteInfo where
  uid : String
  name : String
  folderish : Bool
  deriving DecidableEq, Repr

/-- Embedding of `Controller._normalize_url`: `None` and the empty string are
rejected with `ValueError` (the `InvalidArgument` error kind); a URL whose
last character is `'/'` (Python `url.endswith('/')` for the one-character
suffix) is returned unchanged; otherwise `'/'` is appended. -/
def normalize_url : Option String → Except String String
  | none => .error "InvalidArgument"
  | some url =>
    if url.data = [] then .error "InvalidArgument"
    else if url.data.getLast? = some '/' then .ok url
    else .ok (url ++ "/")

/-- CLAIM C9: a non-empty URL already ending in `/` is returned unchanged,
otherwise `/` is appended; normalization is idempotent on its own output;
a null or empty URL fails with the `InvalidArgument` error kind. -/
theorem normalize_url_spec (url : String) :
    (url.data ≠ [] → url.data.getLast? = some '/' →
        normalize_url (some url) = .ok url) ∧
    (url.data ≠ [] → url.data.getLast? ≠ some '/' →
        normalize_url (some url) = .ok (url ++ "/")) ∧
    (∀ v, normalize_url (some url) = .ok v → normalize_url (some v) = .ok v) ∧
    (normalize_url none = .error "InvalidArgument" ∧
      normalize_url (some "") = .error "InvalidArgument") := by
  refine ⟨?_, ?_, ?_, by simp [normalize_url], by simp [normalize_url]⟩
  · intro h1 h2
    simp [normalize_url, h1, h2]
  · intro h1 h2
    simp [normalize_url, h1, h2]
  · intro v hv
    by_cases h1 : url.data = []
    · simp [normalize_url, h1] at hv
    by_cases h2 : url.data.getLast? = some '/'
    · simp [normalize_url, h1, h2] at hv
      subst hv
      simp [normalize_url, h1, h2]
    · simp [normalize_url, h1, h2] at hv
      subst hv
      have hdata : (url ++ "/").data = url.data ++ ['/'] := rfl
      simp [normalize_url, hdata]

/-- Witness for C9 at the concrete server URL of the basic-bind scenario. -/
theorem normalize_url_spec_witness :
    normalize_url (some "http://srv/nuxeo") = .ok ("http://srv/nuxeo" ++ "/") :=
  (normalize_url_spec "http://srv/nuxeo").2.1 (by decide) (by decide)

/-- Lexicographic comparison of character lists by code point, the executable
order underlying SQLite text comparison of path columns. -/
def charsLe : List Char → List Char → Bool
  | [], _ => true
  | _ :: _, [] => false
  | a :: as, b :: bs =>
    if a.toNat < b.toNat then true
    else if b.toNat < a.toNat then false
    else charsLe as bs

theorem charsLe_total (x : List Char) :
    ∀ y, charsLe x y = true ∨ charsLe y x = true := by
  induction x with
  | nil => intro y; left; rfl
  | cons a as ih =>
    intro y
    cases y with
    | nil => right; rfl
    | cons b bs =>
      by_cases h1 : a.toNat < b.toNat
      · left; simp [charsLe, h1]
      · by_cases h2 : b.toNat < a.toNat
        · right; simp [charsLe, h2]
        · rcases ih bs with h | h
          · left; simp [charsLe, h1, h2, h]
          · right; simp [charsLe, h1, h2, h]

theorem charsLe_trans (x : List Char) :
    ∀ y z, charsLe x y = true → charsLe y z = true → charsLe x z = true := by
  induction x with
  | nil => intro y z _ _; rfl
  | cons a as ih =>
    intro y z h1 h2
    cases y with
    | nil => simp [charsLe] at h1
    | cons b bs =>
      cases z with
      | nil => simp [charsLe] at h2
      | cons c cs =>
        simp only [charsLe] at h1 h2 ⊢
        by_cases hab : a.toNat < b.toNat <;> by_cases hbc : b.toNat < c.toNat
        · simp [show a.toNat < c.toNat by omega]
        · by_cases hcb : c.toNat < b.toNat
          · simp [hbc, hcb] at h2
          · simp [show a.toNat < c.toNat by omega]
        · by_cases hba : b.toNat < a.toNat
          · simp [hab, hba] at h1
          · simp [show a.toNat < c.toNat by omega]
        · by_cases hba : b.toNat < a.toNat
          · simp [hab, hba] at h1
          · by_cases hcb : c.toNat < b.toNat
            · simp [hbc, hcb] at h2
            · have h1' : charsLe as bs = true := by simpa [hab, hba] using h1
              have h2' : charsLe bs cs = true := by simpa [hbc, hcb] using h2
              simp [show ¬a.toNat < c.toNat by omega,
                show ¬c.toNat < a.toNat by omega]
              exact ih bs cs h1' h2'

theorem charsLe_antisymm (x : List Char) :
    ∀ y, charsLe x y = true → charsLe y x = true → x = y := by
  induction x with
  | nil =>
    intro y h1 h2
    cases y with
    | nil => rfl
    | cons b bs => simp [charsLe] at h2
  | cons a as ih =>
    intro y h1 h2
    cases y with
    | nil => simp [charsLe] at h1
    | cons b bs =>
      simp only [charsLe] at h1 h2
      by_cases hab : a.toNat < b.toNat
      · simp [show ¬(b.toNat < a.toNat) by omega, hab] at h2
      · by_cases hba : b.toNat < a.toNat
        · simp [hab, hba] at h1
        · have hn : a.toNat = b.toNat := by omega
          have ha : a = b := Char.ext (UInt32.ext hn)
          have h1' : charsLe as bs = true := by simpa [hab, hba] using h1
          have h2' : charsLe bs as = true := by simpa [hab, hba] using h2
          rw [ha, ih bs h1' h2']

/-- Comparison of two strings as lists of characters. -/
def strLe (x y : String) : Bool := charsLe x.data y.data

/-- Comparison on nullable string columns, matching SQLite ascending order:
`NULL` sorts before every value, values compare as text. -/
def optStrLe : Option String → Option String → Bool
  | none, _ => true
  | some _, none => false
  | some x, some y => strLe x y

theorem optStrLe_total (a b : Option String) :
    optStrLe a b = true ∨ optStrLe b a = true := by
  cases a <;> cases b
  · left; rfl
  · left; rfl
  · right; rfl
  · exact charsLe_total _ _

theorem optStrLe_trans {a b c : Option String} (h1 : optStrLe a b = true)
    (h2 : optStrLe b c = true) : optStrLe a c = true := by
  cases a
  · rfl
  cases b
  · simp [optStrLe, strLe, charsLe] at h1
  cases c
  · simp [optStrLe, strLe, charsLe] at h2
  exact charsLe_trans _ _ _ h1 h2

theorem optStrLe_antisymm {a b : Option String} (h1 : optStrLe a b = true)
    (h2 : optStrLe b a = true) : a = b := by
  cases a with
  | none =>
    cases b with
    | none => rfl
    | some y => simp [optStrLe, strLe, charsLe] at h2
  | some x =>
    cases b with
    | none => simp [optStrLe, strLe, charsLe] at h1
    | some y =>
      have : x.data = y.data := charsLe_antisymm _ _ h1 h2
      cases x
      cases y
      exact congrArg (some ∘ String.mk) this

/-- Executable stable insertion step for the embedding of SQL `ORDER BY`. -/
def insertLe (le : α → α → Bool) (a : α) : List α → List α
  | [] => [a]
  | b :: l => if le a b then a :: b :: l else b :: insertLe le a l

/-- Executable stable sort for the embedding of SQL `ORDER BY`. -/
def sortLe (le : α → α → Bool) : List α → List α
  | [] => []
  | a :: l => insertLe le a (sortLe le l)

theorem mem_insertLe {le : α → α → Bool} {x a : α} {l : List α} :
    x ∈ insertLe le a l ↔ x = a ∨ x ∈ l := by
  induction l with
  | nil => simp [insertLe]
  | cons b l ih =>
    by_cases h : le a b = true
    · simp [insertLe, h]
    · simp [insertLe, h, ih]
      tauto

theorem mem_sortLe {le : α → α → Bool} {x : α} {l : List α} :
    x ∈ sortLe le l ↔ x ∈ l := by
  induction l with
  | nil => simp [sortLe]
  | cons a l ih => simp [sortLe, mem_insertLe, ih]

theorem length_insertLe (le : α → α → Bool) (a : α) (l : List α) :
    (insertLe le a l).length = l.length + 1 := by
  induction l with
  | nil => simp [insertLe]
  | cons b l ih =>
    by_cases h : le a b = true <;> simp [insertLe, h, ih]

theorem length_sortLe (le : α → α → Bool) (l : List α) :
    (sortLe le l).length = l.length := by
  induction l with
  | nil => simp [sortLe]
  | cons a l ih => simp [sortLe, length_insertLe, ih]

theorem pairwise_insertLe {le : α → α → Bool}
    (htot : ∀ a b, le a b = true ∨ le b a = true)
    (htrans : ∀ a b c, le a b = true → le b c = true → le a c = true)
    (a : α) {l : List α} (h : l.Pairwise (fun x y => le x y = true)) :
    (insertLe le a l).Pairwise (fun x y => le x y = true) := by
  induction l with
  | nil => simp [insertLe]
  | cons b l ih =>
    rcases List.pairwise_cons.1 h with ⟨hb, hl⟩
    by_cases hab : le a b = true
    · simp only [insertLe, hab, if_true]
      refine List.pairwise_cons.2 ⟨?_, h⟩
      intro y hy
      rcases List.mem_cons.1 hy with rfl | hy
      · exact hab
      · exact htrans _ _ _ hab (hb y hy)
    · simp only [insertLe, hab, if_false]
      refine List.pairwise_cons.2 ⟨?_, ih hl⟩
      intro y hy
      rcases mem_insertLe.1 hy with hya | hy
      · rw [hya]
        rcases htot a b with h' | h'
        · exact absurd h' hab
        · exact h'
      · exact hb y hy

theorem pairwise_sortLe {le : α → α → Bool}
    (htot : ∀ a b, le a b = true ∨ le b a = true)
    (htrans : ∀ a b c, le a b = true → le b c = true → le a c = true)
    (l : List α) : (sortLe le l).Pairwise (fun x y => le x y = true) := by
  induction l with
  | nil => simp [sortLe]
  | cons a l ih => exact pairwise_insertLe htot htrans a ih

/-- The sort key of `list_pending`: SQL `ORDER BY path ASC, remote_path ASC`
as a lexicographic comparison on the pair `(path, remote_path)`. -/
def pending_key_le (a b : LastKnownState) : Bool :=
  if a.path = b.path then optStrLe a.remote_path b.remote_path
  else optStrLe a.path b.path

theorem pending_key_le_total (a b : LastKnownState) :
    pending_key_le a b = true ∨ pending_key_le b a = true := by
  unfold pending_key_le
  by_cases h : a.path = b.path
  · rw [if_pos h, if_pos h.symm]
    exact optStrLe_total _ _
  · rw [if_neg h, if_neg (fun h' => h h'.symm)]
    exact optStrLe_total _ _

theorem pending_key_le_trans (a b c : LastKnownState)
    (h1 : pending_key_le a b = true) (h2 : pending_key_le b c = true) :
    pending_key_le a c = true := by
  unfold pending_key_le at h1 h2 ⊢
  by_cases hab : a.path = b.path <;> by_cases hbc : b.path = c.path
  · rw [if_pos hab] at h1
    rw [if_pos hbc] at h2
    rw [if_pos (hab.trans hbc)]
    exact optStrLe_trans h1 h2
  · rw [if_pos hab] at h1
    rw [if_neg hbc] at h2
    rw [if_neg (fun h : a.path = c.path => hbc (hab ▸ h)), hab]
    exact h2
  · rw [if_neg hab] at h1
    rw [if_pos hbc] at h2
    rw [if_neg (fun h : a.path = c.path => hab (h.trans hbc.symm)), ← hbc]
    exact h1
  · rw [if_neg hab] at h1
    rw [if_neg hbc] at h2
    by_cases hac : a.path = c.path
    · rw [← hac] at h2
      exact absurd (optStrLe_antisymm h1 h2) hab
    · rw [if_neg hac]
      exact optStrLe_trans h1 h2

/-- Embedding of the `predicates` list built by `Controller.list_pending`:
the pair state is not `synchronized`; when a `local_folder` filter is given
the row's `local_folder` matches it; and when `ignore_in_error` is given and
positive, the row's `last_sync_error_date` is `NULL` or lies strictly before
`datetime.now() - timedelta(seconds=ignore_in_error)`. -/
def pending_predicates (local_folder : Option String) (ignore_in_error : Option Int)
    (now : Int) (s : LastKnownState) : Bool :=
  (!(s.pair_state == "synchronized")) &&
  (match local_folder with
   | none => true
   | some lf => s.local_folder == lf) &&
  (match ignore_in_error with
   | none => true
   | some d =>
     if 0 < d then
       match s.last_sync_error_date with
       | none => true
       | some t => decide (t < now - d)
     else true)

/-- Embedding of `Controller.list_pending`: filter the pair-state table by
the predicates, order ascending by `(path, remote_path)`, keep `limit` rows. -/
def list_pending (db : List LastKnownState) (limit : Nat)
    (local_folder : Option String) (ignore_in_error : Option Int) (now : Int) :
    List LastKnownState :=
  (sortLe pending_key_le
    (db.filter (pending_predicates local_folder ignore_in_error now))).take limit

/-- CLAIM C3: `list_pending` returns at most `limit` rows, every returned row
has `pair_state` different from `synchronized` and matches the `local_folder`
filter when one is supplied, and the result is sorted ascending by the key
`(path, remote_path)`. -/
theorem list_pending_spec (db : List LastKnownState) (limit : Nat)
    (lf : Option String) (ig : Option Int) (now : Int) :
    (list_pending db limit lf ig now).length ≤ limit ∧
    (∀ s ∈ list_pending db limit lf ig now,
        s.pair_state ≠ "synchronized" ∧ ∀ f, lf = some f → s.local_folder = f) ∧
    (list_pending db limit lf ig now).Pairwise
      (fun a b => pending_key_le a b = true) := by
  refine ⟨?_, ?_, ?_⟩
  · simp [list_pending, List.length_take]
  · intro s hs
    have hmem : s ∈ db.filter (pending_predicates lf ig now) :=
      mem_sortLe.1 (List.mem_of_mem_take hs)
    have hpred : pending_predicates lf ig now s = true :=
      (List.mem_filter.1 hmem).2
    simp only [pending_predicates, Bool.and_eq_true, Bool.not_eq_true',
      beq_eq_false_iff_ne] at hpred
    refine ⟨hpred.1.1, ?_⟩
    intro f hf
    have := hpred.1.2
    rw [hf] at this
    simpa using this
  · exact List.Pairwise.sublist (List.take_sublist _ _)
      (pairwise_sortLe pending_key_le_total pending_key_le_trans _)

/-- A default pair-state row used to build concrete witness scenarios. -/
def baseState : LastKnownState :=
  { local_folder := "/u", local_root := "/u/r", path := some "/p",
    parent_path := some "/", local_name := some "p", remote_ref := none,
    remote_parent_ref := none, remote_name := none, remote_path := none,
    folderish := false, pair_state := "unknown",
    last_sync_error_date := none }

/-- The pending-ordering scenario: three non-synchronized pair states stored
with paths `/a/b`, `/a`, `/a/b/c` in that order. -/
def pendingScenario : List LastKnownState :=
  [{ baseState with path := some "/a/b", pair_state := "locally_modified" },
   { baseState with path := some "/a", pair_state := "locally_modified" },
   { baseState with path := some "/a/b/c", pair_state := "locally_modified" }]

/-- Witness for C3: on the pending-ordering scenario, `list_pending` with
limit 10 returns the rows sorted as `/a`, `/a/b`, `/a/b/c`, and the
theorem's length bound applies. -/
theorem list_pending_spec_witness :
    (list_pending pendingScenario 10 none none 0).length ≤ 10 ∧
    (list_pending pendingScenario 10 none none 0).map
        (fun s => s.path) = [some "/a", some "/a/b", some "/a/b/c"] :=
  ⟨(list_pending_spec pendingScenario 10 none none 0).1, by decide⟩

/-- When `ignore_in_error` is supplied and positive, the predicate list of
`list_pending` reduces to: not synchronized, local-folder match, and the
error-cooldown disjunction `last_sync_error_date IS NULL OR < now - d`. -/
theorem pending_predicates_some_pos (lf : Option String) (d now : Int)
    (hd : 0 < d) (s : LastKnownState) :
    pending_predicates lf (some d) now s =
      ((!(s.pair_state == "synchronized")) &&
       (match lf with
        | none => true
        | some f => s.local_folder == f) &&
       (match s.last_sync_error_date with
        | none => true
        | some t => decide (t < now - d))) := by
  simp [pending_predicates, hd]

/-- CLAIM C4: with a positive `ignore_in_error` window, a pair state whose
`last_sync_error_date` lies within the last `d` seconds before `now` is
excluded from the result of `list_pending`, and a non-synchronized pair state
(matching the `local_folder` filter) whose error date lies strictly before
the window is kept by the query and, when the filtered table fits within
`limit`, appears in the result. -/
theorem list_pending_error_cooldown (db : List LastKnownState) (limit : Nat)
    (lf : Option String) (d now t : Int) (s : LastKnownState)
    (hd : 0 < d) (ht : s.last_sync_error_date = some t) :
    (now - d ≤ t → s ∉ list_pending db limit lf (some d) now) ∧
    (t < now - d → s ∈ db → s.pair_state ≠ "synchronized" →
      (∀ f, lf = some f → s.local_folder = f) →
      s ∈ sortLe pending_key_le (db.filter (pending_predicates lf (some d) now)) ∧
      ((db.filter (pending_predicates lf (some d) now)).length ≤ limit →
        s ∈ list_pending db limit lf (some d) now)) := by
  constructor
  · intro hle hmem
    have hmem' : s ∈ db.filter (pending_predicates lf (some d) now) :=
      mem_sortLe.1 (List.mem_of_mem_take hmem)
    have hpred := (List.mem_filter.1 hmem').2
    rw [pending_predicates_some_pos lf d now hd s, ht] at hpred
    simp only [Bool.and_eq_true, decide_eq_true_eq] at hpred
    exact absurd hpred.2 (not_lt.2 hle)
  · intro hlt hdb hne hmatch
    have hpred : pending_predicates lf (some d) now s = true := by
      rw [pending_predicates_some_pos lf d now hd s, ht]
      simp only [Bool.and_eq_true, decide_eq_true_eq]
      refine ⟨⟨?_, ?_⟩, hlt⟩
      · simp [hne]
      · cases lf with
        | none => rfl
        | some f => simp [hmatch f rfl]
    have hsort : s ∈ sortLe pending_key_le
        (db.filter (pending_predicates lf (some d) now)) :=
      mem_sortLe.2 (List.mem_filter.2 ⟨hdb, hpred⟩)
    refine ⟨hsort, ?_⟩
    intro hlen
    unfold list_pending
    rw [List.take_of_length_le (by rw [length_sortLe]; exact hlen)]
    exact hsort

/-- The error-cooldown scenario pair: `last_sync_error_date = now - 5` for
`now = 100`. -/
def cooldownPair : LastKnownState :=
  { baseState with pair_state := "locally_modified",
                   last_sync_error_date := some 95 }

/-- Witness for C4: with `now = 100` and an error recorded at `95`,
`list_pending` with `ignore_in_error = 10` excludes the pair and with
`ignore_in_error = 1` includes it. -/
theorem list_pending_error_cooldown_witness :
    cooldownPair ∉ list_pending [cooldownPair] 10 none (some 10) 100 ∧
    cooldownPair ∈ list_pending [cooldownPair] 10 none (some 1) 100 := by
  constructor
  · exact (list_pending_error_cooldown [cooldownPair] 10 none 10 100 95
      cooldownPair (by decide) rfl).1 (by decide)
  · exact ((list_pending_error_cooldown [cooldownPair] 10 none 1 100 95
      cooldownPair (by decide) rfl).2 (by decide) (by simp) (by decide)
      (fun f h => by cases h)).2 (by decide)

/-- CLAIM C10: with a positive `ignore_in_error` window, a pair state whose
`last_sync_error_date` is `NULL` is never excluded by the cooldown filter:
the predicate list evaluates exactly as with no cooldown at all, and such a
non-synchronized pair (matching the folder filter) is always kept by the
query. -/
theorem list_pending_null_error_date (db : List LastKnownState)
    (lf : Option String) (d now : Int) (s : LastKnownState)
    (hd : 0 < d) (hnull : s.last_sync_error_date = none) :
    pending_predicates lf (some d) now s = pending_predicates lf none now s ∧
    (s ∈ db → s.pair_state ≠ "synchronized" →
      (∀ f, lf = some f → s.local_folder = f) →
      s ∈ sortLe pending_key_le (db.filter (pending_predicates lf (some d) now))) := by
  constructor
  · rw [pending_predicates_some_pos lf d now hd s, hnull]
    simp [pending_predicates]
  · intro hdb hne hmatch
    have hpred : pending_predicates lf (some d) now s = true := by
      rw [pending_predicates_some_pos lf d now hd s, hnull]
      simp only [Bool.and_eq_true]
      refine ⟨⟨?_, ?_⟩, trivial⟩
      · simp [hne]
      · cases lf with
        | none => rfl
        | some f => simp [hmatch f rfl]
    exact mem_sortLe.2 (List.mem_filter.2 ⟨hdb, hpred⟩)

/-- A never-failed pair: `last_sync_error_date` is `NULL`. -/
def noErrorPair : LastKnownState :=
  { baseState with pair_state := "locally_modified" }

/-- Witness for C10 on a concrete never-failed modified pair. -/
theorem list_pending_null_error_date_witness :
    pending_predicates none (some 10) 100 noErrorPair =
      pending_predicates none none 100 noErrorPair ∧
    noErrorPair ∈ sortLe pending_key_le
      ([noErrorPair].filter (pending_predicates none (some 10) 100)) := by
  have h := list_pending_null_error_date [noErrorPair] none 10 100 noErrorPair
    (by decide) rfl
  exact ⟨h.1, h.2 (by simp) (by decide) (fun f hf => by cases hf)⟩


/-- The in-place credential update performed by `Controller.bind_server` on
an existing binding for the same folder, server and user: with no token, the
password is refreshed when it differs; with a token, a differing token is
stored and any stored password is cleared. -/
def bind_server_update (sb : ServerBinding) (password token : Option String) :
    ServerBinding :=
  match token with
  | none =>
    if sb.remote_password ≠ password then { sb with remote_password := password }
    else sb
  | some t =>
    if sb.remote_token ≠ some t then
      { sb with remote_token := some t, remote_password := none }
    else sb

/-- Embedding of `Controller.bind_server`. The remote client's
`request_token` call is external: its result on success (a token, or null
when the server does not support token-based identification) is the `token`
parameter. `local_folder` is already normalized; the stored table of server
bindings is `db`; the result is the table after commit, or the raised error
kind. -/
def bind_server (db : List ServerBinding)
    (local_folder server_url username : String)
    (password : Option String) (token : Option String) :
    Except String (List ServerBinding) :=
  match normalize_url (some server_url) with
  | .error e => .error e
  | .ok url =>
    let password := if token.isSome then none else password
    match db.find? (fun sb => sb.local_folder == local_folder) with
    | some sb =>
      if sb.remote_user ≠ username ∨ sb.server_url ≠ url then
        .error "AlreadyBound"
      else
        .ok (db.map (fun x =>
          if x.local_folder == local_folder then
            bind_server_update sb password token
          else x))
    | none =>
      .ok (db ++ [{ local_folder := local_folder, server_url := url,
                    remote_user := username, remote_password := password,
                    remote_token := token }])

/-- The credential-exclusivity invariant of the spec: a server binding never
carries both a non-null password and a non-null token. -/
def cred_invariant (sb : ServerBinding) : Prop :=
  sb.remote_password = none ∨ sb.remote_token = none

theorem normalize_url_ok (url : String) (h : url.data ≠ []) :
    ∃ v, normalize_url (some url) = .ok v := by
  unfold normalize_url
  by_cases h2 : url.data.getLast? = some '/' <;> simp [h, h2]

theorem find?_append_of_none {p : α → Bool} {l₁ l₂ : List α}
    (h : l₁.find? p = none) : (l₁ ++ l₂).find? p = l₂.find? p := by
  induction l₁ with
  | nil => rfl
  | cons a l ih =>
    cases hpa : p a with
    | true => rw [List.find?_cons_of_pos _ hpa] at h; cases h
    | false =>
      rw [List.find?_cons_of_neg _ (by simp [hpa])] at h
      rw [List.cons_append, List.find?_cons_of_neg _ (by simp [hpa])]
      exact ih h

theorem filter_length_map_of_preserve (f : α → α) (q : α → Bool) (l : List α)
    (h : ∀ x ∈ l, q (f x) = q x) :
    ((l.map f).filter q).length = (l.filter q).length := by
  induction l with
  | nil => rfl
  | cons a l ih =>
    simp only [List.map_cons, List.filter_cons]
    rw [h a (.head _)]
    cases hqa : q a <;> simp [ih (fun x hx => h x (.tail _ hx))]

theorem bind_server_update_fields (sb : ServerBinding) (p t : Option String) :
    (bind_server_update sb p t).local_folder = sb.local_folder ∧
    (bind_server_update sb p t).server_url = sb.server_url ∧
    (bind_server_update sb p t).remote_user = sb.remote_user := by
  unfold bind_server_update
  cases t with
  | none => by_cases h : sb.remote_password ≠ p <;> simp [h]
  | some t' => by_cases h : sb.remote_token ≠ some t' <;> simp [h]

theorem bind_server_update_inv_none (sb : ServerBinding) (p : Option String)
    (h : p = none ∨ sb.remote_token = none) :
    cred_invariant (bind_server_update sb p none) := by
  unfold bind_server_update cred_invariant
  by_cases hp : sb.remote_password ≠ p
  · simp only [if_pos hp]
    rcases h with h | h
    · left; exact h
    · right; exact h
  · simp only [if_neg hp]
    push_neg at hp
    rcases h with h | h
    · left; rw [hp, h]
    · right; exact h

theorem bind_server_update_pw_some (sb : ServerBinding) (p : Option String)
    (t : String) (hinv : cred_invariant sb) :
    (bind_server_update sb p (some t)).remote_password = none := by
  unfold bind_server_update
  by_cases h : sb.remote_token ≠ some t
  · simp only [if_pos h]
  · simp only [if_neg h]
    push_neg at h
    rcases hinv with hp | ht
    · exact hp
    · rw [ht] at h; cases h

theorem bind_server_invalid_url (db : List ServerBinding)
    (lf url user : String) (pw tok : Option String) (e : String)
    (hn : normalize_url (some url) = .error e) :
    bind_server db lf url user pw tok = .error e := by
  unfold bind_server
  split
  · next e' heq =>
    rw [hn] at heq
    injection heq with h
    rw [h]
  · next nurl heq => rw [hn] at heq; exact Except.noConfusion heq

theorem bind_server_fresh (db : List ServerBinding)
    (lf url user : String) (pw tok : Option String) (nurl : String)
    (hn : normalize_url (some url) = .ok nurl)
    (hf : db.find? (fun x => x.local_folder == lf) = none) :
    bind_server db lf url user pw tok =
      .ok (db ++ [{ local_folder := lf, server_url := nurl,
                    remote_user := user,
                    remote_password := if tok.isSome then none else pw,
                    remote_token := tok }]) := by
  unfold bind_server
  split
  · next e heq => rw [hn] at heq; exact Except.noConfusion heq
  · next nurl' heq =>
    rw [hn] at heq
    injection heq with h
    subst h
    simp only [hf]

theorem bind_server_already_bound (db : List ServerBinding)
    (lf url user : String) (pw tok : Option String)
    (nurl : String) (sb0 : ServerBinding)
    (hn : normalize_url (some url) = .ok nurl)
    (hf : db.find? (fun x => x.local_folder == lf) = some sb0)
    (hmis : sb0.remote_user ≠ user ∨ sb0.server_url ≠ nurl) :
    bind_server db lf url user pw tok = .error "AlreadyBound" := by
  unfold bind_server
  split
  · next e heq => rw [hn] at heq; exact Except.noConfusion heq
  · next nurl' heq =>
    rw [hn] at heq
    injection heq with h
    subst h
    simp only [hf]
    rw [if_pos hmis]

theorem bind_server_rebind_eq (db : List ServerBinding)
    (lf url user : String) (pw tok : Option String)
    (nurl : String) (sb0 : ServerBinding)
    (hn : normalize_url (some url) = .ok nurl)
    (hf : db.find? (fun x => x.local_folder == lf) = some sb0)
    (huser : sb0.remote_user = user) (hsurl : sb0.server_url = nurl) :
    bind_server db lf url user pw tok =
      .ok (db.map (fun x =>
        if x.local_folder == lf then
          bind_server_update sb0 (if tok.isSome then none else pw) tok
        else x)) := by
  unfold bind_server
  split
  · next e heq => rw [hn] at heq; exact Except.noConfusion heq
  · next nurl' heq =>
    rw [hn] at heq
    injection heq with h
    subst h
    simp only [hf]
    rw [if_neg (by simp [huser, hsurl])]

/-- The server binding of the C5 counterexample: a folder bound earlier
against a token-issuing server, so it stores a token and no password. -/
def tokenBinding : ServerBinding :=
  { local_folder := "/f", server_url := "http://s/", remote_user := "u",
    remote_password := none, remote_token := some "tok" }

/-- Counterexample to C5 as stated: rebinding the same folder with the same
user and URL while the server now issues no token (`request_token` returns
null) stores the new password but leaves the previously stored token in
place, so after this successful `bind_server` call the binding carries both
a non-null password and a non-null token. -/
theorem bind_server_both_credentials_cex :
    bind_server [tokenBinding] "/f" "http://s/" "u" (some "pw") none =
      .ok [{ local_folder := "/f", server_url := "http://s/",
             remote_user := "u", remote_password := some "pw",
             remote_token := some "tok" }] ∧
    ¬ cred_invariant { local_folder := "/f", server_url := "http://s/",
                       remote_user := "u", remote_password := some "pw",
                       remote_token := some "tok" } :=
  ⟨by rfl, by simp [cred_invariant]⟩

/-- CLAIM C5 (amended): provided every stored binding satisfies credential
exclusivity before the call, and provided that when the server issues no
token either no password is supplied or the bound folder's existing binding
carries no token, every binding after a successful `bind_server` satisfies
credential exclusivity; moreover whenever the server issues a token, the
binding stored at the bound folder ends with a null password. -/
theorem bind_server_cred_invariant (db : List ServerBinding)
    (lf url user : String) (pw tok : Option String) (db' : List ServerBinding)
    (hinv : ∀ sb ∈ db, cred_invariant sb)
    (hcase : tok = none → pw = none ∨
      ∀ sb ∈ db, sb.local_folder = lf → sb.remote_token = none)
    (hok : bind_server db lf url user pw tok = .ok db') :
    (∀ sb ∈ db', cred_invariant sb) ∧
    (∀ t, tok = some t →
      ∀ sb ∈ db', sb.local_folder = lf → sb.remote_password = none) := by
  cases hn : normalize_url (some url) with
  | error e =>
    rw [bind_server_invalid_url db lf url user pw tok e hn] at hok
    exact Except.noConfusion hok
  | ok nurl =>
    cases hf : db.find? (fun x => x.local_folder == lf) with
    | none =>
      rw [bind_server_fresh db lf url user pw tok nurl hn hf] at hok
      injection hok with h
      subst h
      constructor
      · intro sb hsb
        rcases List.mem_append.1 hsb with h | h
        · exact hinv sb h
        · rcases List.mem_singleton.1 h with rfl
          cases tok with
          | none => right; rfl
          | some t => left; rfl
      · intro t ht sb hsb hlf
        rcases List.mem_append.1 hsb with h | h
        · have hne := List.find?_eq_none.1 hf sb h
          simp only [beq_iff_eq] at hne
          exact absurd hlf hne
        · rcases List.mem_singleton.1 h with rfl
          simp [ht]
    | some sb0 =>
      have hmem0 : sb0 ∈ db := List.mem_of_find?_eq_some hf
      have hkey : sb0.local_folder = lf := by
        have := List.find?_some hf
        simpa using this
      by_cases hmis : sb0.remote_user ≠ user ∨ sb0.server_url ≠ nurl
      · rw [bind_server_already_bound db lf url user pw tok nurl sb0 hn hf hmis]
          at hok
        exact Except.noConfusion hok
      · push_neg at hmis
        rw [bind_server_rebind_eq db lf url user pw tok nurl sb0 hn hf
          hmis.1 hmis.2] at hok
        injection hok with h
        subst h
        have hupd_inv : cred_invariant
            (bind_server_update sb0 (if tok.isSome then none else pw) tok) := by
          cases tok with
          | none =>
            apply bind_server_update_inv_none
            rcases hcase rfl with hp | htk
            · left; simp [hp]
            · right; exact htk sb0 hmem0 hkey
          | some t =>
            left
            exact bind_server_update_pw_some sb0 _ t (hinv sb0 hmem0)
        constructor
        · intro sb hsb
          rcases List.mem_map.1 hsb with ⟨x, hx, hfx⟩
          by_cases hxlf : (x.local_folder == lf) = true
          · rw [if_pos hxlf] at hfx; rw [← hfx]; exact hupd_inv
          · rw [if_neg hxlf] at hfx; rw [← hfx]; exact hinv x hx
        · intro t ht sb hsb hlf
          rcases List.mem_map.1 hsb with ⟨x, hx, hfx⟩
          by_cases hxlf : (x.local_folder == lf) = true
          · rw [if_pos hxlf] at hfx
            rw [← hfx]
            subst ht
            exact bind_server_update_pw_some sb0 _ t (hinv sb0 hmem0)
          · rw [if_neg hxlf] at hfx
            rw [← hfx] at hlf
            simp only [beq_iff_eq] at hxlf
            exact absurd hlf hxlf

/-- The binding produced by the C5 witness rebind: the fresh token replaces
the old one and no password is stored. -/
def rebindResult : ServerBinding :=
  { local_folder := "/f", server_url := "http://s/", remote_user := "u",
    remote_password := none, remote_token := some "t2" }

/-- Witness for C5 (amended) at a concrete token-carrying binding rebound
while the server issues a fresh token. -/
theorem bind_server_cred_invariant_witness :
    (∀ sb ∈ [rebindResult], cred_invariant sb) ∧
    (∀ t, (some "t2" : Option String) = some t →
      ∀ sb ∈ [rebindResult], sb.local_folder = "/f" →
        sb.remote_password = none) :=
  bind_server_cred_invariant [tokenBinding] "/f" "http://s/" "u"
    (some "pw") (some "t2") [rebindResult]
    (by intro sb hsb; rcases List.mem_singleton.1 hsb with rfl; left; rfl)
    (fun h => Option.noConfusion h)
    (by rfl)

/-- CLAIM C6: binding a fresh folder twice with identical arguments leaves
exactly one server binding for that folder; rebinding an already-bound
folder with the same user and normalized URL succeeds and updates the
binding in place (same table size, other rows untouched, same number of
rows for that folder, and the folder's rows keep that URL and user); and
rebinding with a differing user or URL fails with the `AlreadyBound` error
kind, returning no modified table. -/
theorem bind_server_rebind_spec (db : List ServerBinding)
    (lf url user : String) (pw tok : Option String)
    (hurl : url.data ≠ []) :
    ((∀ x ∈ db, x.local_folder ≠ lf) →
      ∃ db₁ db₂, bind_server db lf url user pw tok = .ok db₁ ∧
        bind_server db₁ lf url user pw tok = .ok db₂ ∧
        (db₂.filter (fun x => x.local_folder == lf)).length = 1) ∧
    (∀ sb nurl, db.find? (fun x => x.local_folder == lf) = some sb →
      normalize_url (some url) = .ok nurl →
      (sb.remote_user = user → sb.server_url = nurl →
        ∃ db', bind_server db lf url user pw tok = .ok db' ∧
          db'.length = db.length ∧
          (∀ x ∈ db, x.local_folder ≠ lf → x ∈ db') ∧
          (db'.filter (fun x => x.local_folder == lf)).length =
            (db.filter (fun x => x.local_folder == lf)).length ∧
          (∀ x ∈ db', x.local_folder = lf →
            x.server_url = nurl ∧ x.remote_user = user)) ∧
      ((sb.remote_user ≠ user ∨ sb.server_url ≠ nurl) →
        bind_server db lf url user pw tok = .error "AlreadyBound")) := by
  obtain ⟨nurl0, hn0⟩ := normalize_url_ok url hurl
  constructor
  · intro hfresh
    have hfind : db.find? (fun x => x.local_folder == lf) = none := by
      apply List.find?_eq_none.2
      intro x hx
      simp [hfresh x hx]
    have h1 := bind_server_fresh db lf url user pw tok nurl0 hn0 hfind
    have hfind1 : (db ++
          [(⟨lf, nurl0, user, if tok.isSome then none else pw, tok⟩ :
            ServerBinding)]).find? (fun x => x.local_folder == lf) =
        some ⟨lf, nurl0, user, if tok.isSome then none else pw, tok⟩ := by
      rw [find?_append_of_none hfind]
      exact List.find?_cons_of_pos _ (by simp)
    have h2 := bind_server_rebind_eq _ lf url user pw tok nurl0 _ hn0 hfind1
      rfl rfl
    refine ⟨_, _, h1, h2, ?_⟩
    rw [filter_length_map_of_preserve]
    · have hnil : db.filter (fun x => x.local_folder == lf) = [] := by
        apply List.filter_eq_nil_iff.2
        intro x hx
        simp [hfresh x hx]
      simp [List.filter_append, hnil]
    · intro x hx
      by_cases hxq : (x.local_folder == lf) = true
      · rw [if_pos hxq]
        have hfld := (bind_server_update_fields
          ⟨lf, nurl0, user, if tok.isSome then none else pw, tok⟩
          (if tok.isSome then none else pw) tok).1
        simp [hfld, hxq]
      · rw [if_neg hxq]
  · intro sb nurl hf hn
    constructor
    · intro huser hsurl
      refine ⟨_, bind_server_rebind_eq db lf url user pw tok nurl sb hn hf
        huser hsurl, ?_, ?_, ?_, ?_⟩
      · simp
      · intro x hx hxlf
        refine List.mem_map.2 ⟨x, hx, ?_⟩
        rw [if_neg (by simp [hxlf])]
      · apply filter_length_map_of_preserve
        intro x hx
        by_cases hxq : (x.local_folder == lf) = true
        · rw [if_pos hxq]
          have hfld := (bind_server_update_fields sb
            (if tok.isSome then none else pw) tok).1
          have hkey : sb.local_folder = lf := by
            simpa using List.find?_some hf
          simp [hfld, hkey, hxq]
        · rw [if_neg hxq]
      · intro x hx hxlf
        rcases List.mem_map.1 hx with ⟨y, hy, hfy⟩
        by_cases hyq : (y.local_folder == lf) = true
        · rw [if_pos hyq] at hfy
          rw [← hfy]
          have hfld := bind_server_update_fields sb
            (if tok.isSome then none else pw) tok
          exact ⟨hfld.2.1.trans hsurl, hfld.2.2.trans huser⟩
        · rw [if_neg hyq] at hfy
          rw [← hfy] at hxlf
          simp only [beq_iff_eq] at hyq
          exact absurd hxlf hyq
    · intro hmis
      exact bind_server_already_bound db lf url user pw tok nurl sb hn hf hmis

/-- Witness for C6: the idempotent-rebind scenario starting from an empty
store, bound twice to the same server with the same account. -/
theorem bind_server_rebind_spec_witness :
    ∃ db₁ db₂,
      bind_server [] "/f" "http://s" "u" (some "p") (some "tok-1") = .ok db₁ ∧
      bind_server db₁ "/f" "http://s" "u" (some "p") (some "tok-1") = .ok db₂ ∧
      (db₂.filter (fun x => x.local_folder == "/f")).length = 1 :=
  (bind_server_rebind_spec [] "/f" "http://s" "u" (some "p") (some "tok-1")
    (by decide)).1 (fun x hx => absurd hx (List.not_mem_nil x))

/-- Outcome of the external `revoke_token` call made during unbind: success,
a network error (any of the catalog of network error types), an
`Unauthorized` error (token already revoked), or any other exception. -/
inductive RevokeOutcome
  | ok
  | networkError
  | unauthorized
  | otherError
  deriving DecidableEq, Repr

/-- An entry of the per-thread remote-client cache: the key fields under
which the client was stored; `server_url` is also what the cached client
reports, which is what `invalidate_client_cache` compares against. -/
structure CacheEntry where
  server_url : String
  remote_user : String
  base_folder : Option String
  repository : String
  deriving DecidableEq, Repr

/-- Embedding of `Controller.invalidate_client_cache`: drop every cached
client whose `server_url` equals the given one. -/
def invalidate_client_cache (cache : List CacheEntry) (server_url : String) :
    List CacheEntry :=
  cache.filter (fun c => !(c.server_url == server_url))

/-- Embedding of `Controller.unbind_server`. The `revoke` parameter is the
outcome of the external `revoke_token` call; it is consulted only when the
stored binding carries a token (otherwise no revocation is attempted).
Network errors and `Unauthorized` are swallowed; any other revocation
exception propagates before the binding is deleted. A missing binding
raises (`raise_if_missing=True`). -/
def unbind_server (db : List ServerBinding) (cache : List CacheEntry)
    (local_folder : String) (revoke : RevokeOutcome) :
    Except String (List ServerBinding × List CacheEntry) :=
  match db.find? (fun sb => sb.local_folder == local_folder) with
  | none => .error "NotBound"
  | some binding =>
    let proceed :=
      if binding.remote_token ≠ none then
        match revoke with
        | .ok => true
        | .networkError => true
        | .unauthorized => true
        | .otherError => false
      else true
    if proceed then
      .ok (db.filter (fun sb => !(sb.local_folder == local_folder)),
           invalidate_client_cache cache binding.server_url)
    else .error "RevokeFailed"

/-- CLAIM C7: for a bound folder, `unbind_server` deletes the server binding
and commits even when token revocation fails with a network error or with
`Unauthorized` (both swallowed); the resulting binding table has no row for
the folder and keeps every other row, and every cached remote client for the
binding's `server_url` is evicted while other cache entries survive. -/
theorem unbind_server_spec (db : List ServerBinding) (cache : List CacheEntry)
    (lf : String) (revoke : RevokeOutcome) (b : ServerBinding)
    (hf : db.find? (fun sb => sb.local_folder == lf) = some b)
    (hr : revoke = .ok ∨ revoke = .networkError ∨ revoke = .unauthorized) :
    unbind_server db cache lf revoke =
      .ok (db.filter (fun sb => !(sb.local_folder == lf)),
           invalidate_client_cache cache b.server_url) ∧
    (∀ sb ∈ db.filter (fun sb => !(sb.local_folder == lf)),
      sb.local_folder ≠ lf ∧ sb ∈ db) ∧
    (∀ sb ∈ db, sb.local_folder ≠ lf →
      sb ∈ db.filter (fun sb => !(sb.local_folder == lf))) ∧
    (∀ c ∈ invalidate_client_cache cache b.server_url,
      c.server_url ≠ b.server_url ∧ c ∈ cache) ∧
    (∀ c ∈ cache, c.server_url ≠ b.server_url →
      c ∈ invalidate_client_cache cache b.server_url) := by
  refine ⟨?_, ?_, ?_, ?_, ?_⟩
  · unfold unbind_server
    simp only [hf]
    rcases hr with rfl | rfl | rfl <;>
      by_cases ht : b.remote_token ≠ none <;> simp [ht]
  · intro sb hsb
    have := List.mem_filter.1 hsb
    refine ⟨?_, this.1⟩
    simpa using this.2
  · intro sb hsb hne
    exact List.mem_filter.2 ⟨hsb, by simpa using hne⟩
  · intro c hc
    have := List.mem_filter.1 hc
    refine ⟨?_, this.1⟩
    simpa using this.2
  · intro c hc hne
    exact List.mem_filter.2 ⟨hc, by simpa using hne⟩

/-- Witness for C7: a token-carrying binding unbound while the server is
unreachable (network error swallowed); the binding row disappears and the
cached client for that server is evicted while a cache entry for another
server survives. -/
theorem unbind_server_spec_witness :
    unbind_server [tokenBinding]
        [{ server_url := "http://s/", remote_user := "u",
           base_folder := none, repository := "default" },
         { server_url := "http://other/", remote_user := "u",
           base_folder := none, repository := "default" }]
        "/f" .networkError =
      .ok ([tokenBinding].filter (fun sb => !(sb.local_folder == "/f")),
           invalidate_client_cache
             [{ server_url := "http://s/", remote_user := "u",
                base_folder := none, repository := "default" },
              { server_url := "http://other/", remote_user := "u",
                base_folder := none, repository := "default" }]
             tokenBinding.server_url) :=
  (unbind_server_spec [tokenBinding]
    [{ server_url := "http://s/", remote_user := "u",
       base_folder := none, repository := "default" },
     { server_url := "http://other/", remote_user := "u",
       base_folder := none, repository := "default" }]
    "/f" .networkError tokenBinding rfl (Or.inr (Or.inl rfl))).1

/-- Embedding of `Controller._binding_path`. The input path is already
normalized; `sep` is the OS path separator character (`os.path.sep`).
An exact match against a stored root binding resolves to relative path `/`;
otherwise the root bindings whose `local_root` followed by the separator is
a prefix of the input are selected: none raises `NotFound`, more than one
raises the fatal `Ambiguous` error, and a unique match yields the
root-relative suffix with separators replaced by `/`. -/
def binding_path (roots : List RootBinding) (sep : Char) (folder_path : String) :
    Except String (RootBinding × String) :=
  match roots.find? (fun rb => rb.local_root == folder_path) with
  | some rb => .ok (rb, "/")
  | none =>
    match roots.filter (fun rb =>
        (rb.local_root.data ++ [sep]).isPrefixOf folder_path.data) with
    | [] => .error "NotFound"
    | [rb] =>
      .ok (rb, ⟨(folder_path.data.drop rb.local_root.length).map
        (fun c => if c = sep then '/' else c)⟩)
    | _ => .error "Ambiguous"

/-- CLAIM C8: path resolution first tries an exact match against the stored
root bindings and returns relative path `/`; otherwise it selects the roots
whose `local_root` plus separator is a prefix of the input, failing with
`NotFound` when none matches and with the fatal `Ambiguous` error when more
than one matches; on a unique match it returns that root together with the
root-relative path in `/`-separated form starting with `/`. -/
theorem binding_path_spec (roots : List RootBinding) (sep : Char) (p : String) :
    (∀ rb, roots.find? (fun rb => rb.local_root == p) = some rb →
      binding_path roots sep p = .ok (rb, "/")) ∧
    (roots.find? (fun rb => rb.local_root == p) = none →
      (roots.filter (fun rb =>
          (rb.local_root.data ++ [sep]).isPrefixOf p.data) = [] →
        binding_path roots sep p = .error "NotFound") ∧
      (∀ rb rb2 l, roots.filter (fun rb =>
          (rb.local_root.data ++ [sep]).isPrefixOf p.data) = rb :: rb2 :: l →
        binding_path roots sep p = .error "Ambiguous") ∧
      (∀ rb, roots.filter (fun rb =>
          (rb.local_root.data ++ [sep]).isPrefixOf p.data) = [rb] →
        ∃ rel, binding_path roots sep p = .ok (rb, rel) ∧
          rel.data = (p.data.drop rb.local_root.length).map
            (fun c => if c = sep then '/' else c) ∧
          rel.data.head? = some '/')) := by
  constructor
  · intro rb hrb
    unfold binding_path
    simp only [hrb]
  · intro hnone
    refine ⟨?_, ?_, ?_⟩
    · intro hnil
      unfold binding_path
      simp only [hnone, hnil]
    · intro rb rb2 l hcons
      unfold binding_path
      simp only [hnone, hcons]
    · intro rb hone
      unfold binding_path
      simp only [hnone, hone]
      refine ⟨_, rfl, rfl, ?_⟩
      have hmem : rb ∈ roots.filter (fun rb =>
          (rb.local_root.data ++ [sep]).isPrefixOf p.data) := by
        rw [hone]; exact List.mem_singleton.2 rfl
      have hpre : (rb.local_root.data ++ [sep]).isPrefixOf p.data = true :=
        (List.mem_filter.1 hmem).2
      rw [List.isPrefixOf_iff_prefix] at hpre
      rcases hpre with ⟨t, ht⟩
      have hlen : rb.local_root.length = rb.local_root.data.length := rfl
      have hdata : p.data = rb.local_root.data ++ (sep :: t) := by
        rw [← ht]; simp
      rw [hlen, hdata, List.drop_left]
      simp

/-- Witness for C8: a single root binding at `/u/r` resolves the path
`/u/r/doc` to that root with relative path data starting with `/`. -/
theorem binding_path_spec_witness :
    ∃ rel, binding_path [(⟨"/u/r", "default", "uid1"⟩ : RootBinding)] '/'
        "/u/r/doc" = .ok (⟨"/u/r", "default", "uid1"⟩, rel) ∧
      rel.data = (("/u/r/doc" : String).data.drop
          ((⟨"/u/r", "default", "uid1"⟩ : RootBinding).local_root.length)).map
        (fun c => if c = '/' then '/' else c) ∧
      rel.data.head? = some '/' :=
  ((binding_path_spec [⟨"/u/r", "default", "uid1"⟩] '/' "/u/r/doc").2
    rfl).2.2 ⟨"/u/r", "default", "uid1"⟩ rfl

/-- The remote-root uids of a list of stored root bindings
(`local_roots_by_id.keys()` in `update_server_roots`). -/
def root_ids (roots : List RootBinding) : List String :=
  roots.map (fun r => r.remote_root)

/-- The uids of a list of advertised remote roots
(`remote_roots_by_id.keys()` in `update_server_roots`). -/
def remote_ids (rs : List RemoteInfo) : List String :=
  rs.map (fun r => r.uid)

/-- The set difference `local_root_ids - remote_root_ids` (`to_remove`). -/
def roots_to_remove (roots : List RootBinding) (rs : List RemoteInfo) :
    List String :=
  (root_ids roots).filter (fun i => !((remote_ids rs).contains i))

/-- The set difference `remote_root_ids - local_root_ids` (`to_add`). -/
def roots_to_add (roots : List RootBinding) (rs : List RemoteInfo) :
    List String :=
  (remote_ids rs).filter (fun i => !((root_ids roots).contains i))

/-- The advertised remote roots whose uid is in `to_add`
(`remote_roots_by_id[ref] for ref in to_add`). -/
def infos_to_add (roots : List RootBinding) (rs : List RemoteInfo) :
    List RemoteInfo :=
  rs.filter (fun r => !((root_ids roots).contains r.uid))

/-- The removal loop of `update_server_roots`: for each uid in `to_remove`,
`_local_unbind_root` deletes the binding stored under that remote uid. -/
def remove_roots (roots : List RootBinding) : List String → List RootBinding
  | [] => roots
  | ref :: rest =>
    remove_roots (roots.filter (fun rb => !(rb.remote_root == ref))) rest

/-- Embedding of `Controller._local_bind_root` restricted to the root table:
the local root path is `os.path.join(local_folder, safe_filename(name))`
(modeled as concatenation with the separator; `safe_filename` lives outside
this module and is passed as the sanitizer `sf`). An existing binding at
that path with the same `(repository, uid)` makes the call a no-op; a
different target raises; otherwise the new root binding is inserted. The
pair-state seeding and the scanner calls touch the pair-state table only
and are outside this root-bookkeeping model. -/
def local_bind_root (roots : List RootBinding) (local_folder repository : String)
    (sf : String → String) (sep : Char) (info : RemoteInfo) :
    Except String (List RootBinding) :=
  match roots.find? (fun rb =>
      rb.local_root == local_folder ++ sep.toString ++ sf info.name) with
  | some rb =>
    if rb.remote_repo ≠ repository ∨ rb.remote_root ≠ info.uid then
      .error "AlreadyBound"
    else .ok roots
  | none =>
    .ok (roots ++
      [⟨local_folder ++ sep.toString ++ sf info.name, repository, info.uid⟩])

/-- The addition loop of `update_server_roots`: for each advertised root in
`to_add`, obtain a client scoped to it (external) and run the local bind
helper; an exception aborts the remaining loop. -/
def bind_roots (roots : List RootBinding) (local_folder repository : String)
    (sf : String → String) (sep : Char) :
    List RemoteInfo → Except String (List RootBinding)
  | [] => .ok roots
  | info :: rest =>
    match local_bind_root roots local_folder repository sf sep info with
    | .error e => .error e
    | .ok roots' => bind_roots roots' local_folder repository sf sep rest

/-- Embedding of `Controller.update_server_roots`: compute the two set
differences, unbind the stale roots, then bind the new ones; the returned
triple is (removed uids, added uids, resulting root table). -/
def update_server_roots (roots : List RootBinding) (rs : List RemoteInfo)
    (local_folder repository : String) (sf : String → String) (sep : Char) :
    Except String (List String × List String × List RootBinding) :=
  match bind_roots (remove_roots roots (roots_to_remove roots rs))
      local_folder repository sf sep (infos_to_add roots rs) with
  | .error e => .error e
  | .ok out => .ok (roots_to_remove roots rs, roots_to_add roots rs, out)

theorem mem_remove_roots (ids : List String) :
    ∀ (roots : List RootBinding) (x : RootBinding),
      x ∈ remove_roots roots ids ↔ x ∈ roots ∧ x.remote_root ∉ ids := by
  induction ids with
  | nil => intro roots x; simp [remove_roots]
  | cons ref rest ih =>
    intro roots x
    rw [remove_roots, ih]
    simp only [List.mem_filter, List.mem_cons, Bool.not_eq_true',
      beq_eq_false_iff_ne, ne_eq]
    constructor
    · rintro ⟨⟨hx, hne⟩, hrest⟩
      exact ⟨hx, by tauto⟩
    · rintro ⟨hx, hnot⟩
      push_neg at hnot
      exact ⟨⟨hx, hnot.1⟩, hnot.2⟩

theorem local_bind_root_mono {roots : List RootBinding} {lf repo : String}
    {sf : String → String} {sep : Char} {info : RemoteInfo}
    {out : List RootBinding}
    (h : local_bind_root roots lf repo sf sep info = .ok out) :
    ∀ x ∈ roots, x ∈ out := by
  unfold local_bind_root at h
  split at h
  · split at h
    · exact Except.noConfusion h
    · injection h with h'
      subst h'
      exact fun x hx => hx
  · injection h with h'
    subst h'
    exact fun x hx => List.mem_append_left _ hx

theorem local_bind_root_uid {roots : List RootBinding} {lf repo : String}
    {sf : String → String} {sep : Char} {info : RemoteInfo}
    {out : List RootBinding}
    (h : local_bind_root roots lf repo sf sep info = .ok out) :
    info.uid ∈ root_ids out := by
  unfold local_bind_root at h
  split at h
  · next rb heq =>
    split at h
    · exact Except.noConfusion h
    · next hcond =>
      push_neg at hcond
      injection h with h'
      subst h'
      exact List.mem_map.2 ⟨rb, List.mem_of_find?_eq_some heq, hcond.2⟩
  · injection h with h'
    subst h'
    exact List.mem_map.2 ⟨⟨lf ++ sep.toString ++ sf info.name, repo, info.uid⟩,
      List.mem_append_right _ (List.mem_singleton.2 rfl), rfl⟩

theorem local_bind_root_super {roots : List RootBinding} {lf repo : String}
    {sf : String → String} {sep : Char} {info : RemoteInfo}
    {out : List RootBinding}
    (h : local_bind_root roots lf repo sf sep info = .ok out) :
    ∀ x ∈ out, x ∈ roots ∨ x.remote_root = info.uid := by
  unfold local_bind_root at h
  split at h
  · split at h
    · exact Except.noConfusion h
    · injection h with h'
      subst h'
      exact fun x hx => Or.inl hx
  · injection h with h'
    subst h'
    intro x hx
    rcases List.mem_append.1 hx with hx | hx
    · exact Or.inl hx
    · rcases List.mem_singleton.1 hx with rfl
      exact Or.inr rfl

theorem bind_roots_mono {lf repo : String} {sf : String → String} {sep : Char} :
    ∀ (infos : List RemoteInfo) (roots out : List RootBinding),
      bind_roots roots lf repo sf sep infos = .ok out → ∀ x ∈ roots, x ∈ out := by
  intro infos
  induction infos with
  | nil =>
    intro roots out h x hx
    unfold bind_roots at h
    injection h with h'
    subst h'
    exact hx
  | cons info rest ih =>
    intro roots out h x hx
    unfold bind_roots at h
    split at h
    · exact Except.noConfusion h
    · next roots' heq => exact ih roots' out h x (local_bind_root_mono heq x hx)

theorem bind_roots_uids {lf repo : String} {sf : String → String} {sep : Char} :
    ∀ (infos : List RemoteInfo) (roots out : List RootBinding),
      bind_roots roots lf repo sf sep infos = .ok out →
      ∀ info ∈ infos, info.uid ∈ root_ids out := by
  intro infos
  induction infos with
  | nil =>
    intro roots out h info hi
    cases hi
  | cons info rest ih =>
    intro roots out h i hi
    unfold bind_roots at h
    split at h
    · exact Except.noConfusion h
    · next roots' heq =>
      rcases List.mem_cons.1 hi with rfl | hi
      · rcases List.mem_map.1 (local_bind_root_uid heq) with ⟨rb, hrb, huid⟩
        exact List.mem_map.2 ⟨rb, bind_roots_mono rest roots' out h rb hrb, huid⟩
      · exact ih roots' out h i hi

theorem bind_roots_super {lf repo : String} {sf : String → String} {sep : Char} :
    ∀ (infos : List RemoteInfo) (roots out : List RootBinding),
      bind_roots roots lf repo sf sep infos = .ok out →
      ∀ x ∈ out, x ∈ roots ∨ x.remote_root ∈ remote_ids infos := by
  intro infos
  induction infos with
  | nil =>
    intro roots out h x hx
    unfold bind_roots at h
    injection h with h'
    subst h'
    exact Or.inl hx
  | cons info rest ih =>
    intro roots out h x hx
    unfold bind_roots at h
    split at h
    · exact Except.noConfusion h
    · next roots' heq =>
      rcases ih roots' out h x hx with hx' | hx'
      · rcases local_bind_root_super heq x hx' with hx'' | hx''
        · exact Or.inl hx''
        · exact Or.inr (List.mem_map.2 ⟨info, List.mem_cons_self _ _, hx''.symm⟩)
      · rcases List.mem_map.1 hx' with ⟨i, hi, hui⟩
        exact Or.inr (List.mem_map.2 ⟨i, List.mem_cons_of_mem _ hi, hui⟩)

theorem contains_iff (l : List String) (a : String) :
    l.contains a = true ↔ a ∈ l := by
  simp [List.contains, List.elem_iff]

theorem not_contains_iff (l : List String) (a : String) :
    ((!(l.contains a)) = true) ↔ a ∉ l := by
  rw [Bool.not_eq_true']
  constructor
  · intro h hmem
    rw [(contains_iff l a).2 hmem] at h
    cases h
  · intro h
    cases hc : l.contains a
    · rfl
    · exact absurd ((contains_iff l a).1 hc) h

/-- CLAIM C2: a successful root alignment removes exactly the uids in
`L \ R`, adds exactly the uids in `R \ L`, leaves the intersection bindings
untouched in the resulting table; when the local and remote uid sets
coincide the removal and addition lists are empty and the table is
unchanged; and running the alignment again on its own output is
mutation-free (empty removal and addition lists, same table). -/
theorem update_server_roots_spec (roots : List RootBinding)
    (rs : List RemoteInfo) (lf repo : String) (sf : String → String)
    (sep : Char) (rem add : List String) (out : List RootBinding)
    (hok : update_server_roots roots rs lf repo sf sep = .ok (rem, add, out)) :
    (∀ i, i ∈ rem ↔ i ∈ root_ids roots ∧ i ∉ remote_ids rs) ∧
    (∀ i, i ∈ add ↔ i ∈ remote_ids rs ∧ i ∉ root_ids roots) ∧
    (∀ rb ∈ roots, rb.remote_root ∈ remote_ids rs → rb ∈ out) ∧
    ((∀ i, i ∈ root_ids roots ↔ i ∈ remote_ids rs) →
      rem = [] ∧ add = [] ∧ out = roots) ∧
    update_server_roots out rs lf repo sf sep = .ok ([], [], out) := by
  unfold update_server_roots at hok
  cases hb : bind_roots (remove_roots roots (roots_to_remove roots rs))
      lf repo sf sep (infos_to_add roots rs) with
  | error e => rw [hb] at hok; exact Except.noConfusion hok
  | ok out' =>
  rw [hb] at hok
  simp only [Except.ok.injEq, Prod.mk.injEq] at hok
  obtain ⟨hrem, hadd, hout⟩ := hok
  subst hrem
  subst hadd
  subst hout
  refine ⟨?_, ?_, ?_, ?_, ?_⟩
  · intro i
    unfold roots_to_remove
    rw [List.mem_filter, not_contains_iff]
  · intro i
    unfold roots_to_add
    rw [List.mem_filter, not_contains_iff]
  · intro rb hrb hid
    apply bind_roots_mono _ _ _ hb
    rw [mem_remove_roots]
    refine ⟨hrb, ?_⟩
    intro hcon
    unfold roots_to_remove at hcon
    have h2 := (List.mem_filter.1 hcon).2
    rw [not_contains_iff] at h2
    exact h2 hid
  · intro hiff
    have e1 : roots_to_remove roots rs = [] := by
      unfold roots_to_remove
      apply List.filter_eq_nil_iff.2
      intro i hi
      simp only [not_contains_iff, not_not]
      exact (hiff i).1 hi
    have e2 : infos_to_add roots rs = [] := by
      unfold infos_to_add
      apply List.filter_eq_nil_iff.2
      intro r hr
      simp only [not_contains_iff, not_not]
      exact (hiff r.uid).2 (List.mem_map.2 ⟨r, hr, rfl⟩)
    have e3 : roots_to_add roots rs = [] := by
      unfold roots_to_add
      apply List.filter_eq_nil_iff.2
      intro i hi
      simp only [not_contains_iff, not_not]
      exact (hiff i).2 hi
    rw [e1, e2] at hb
    rw [show bind_roots (remove_roots roots []) lf repo sf sep [] =
      .ok roots from rfl] at hb
    injection hb with h'
    exact ⟨e1, e3, h'.symm⟩
  · have hsub : ∀ x ∈ out', x.remote_root ∈ remote_ids rs := by
      intro x hx
      rcases bind_roots_super _ _ _ hb x hx with hx' | hx'
      · rcases (mem_remove_roots _ _ x).1 hx' with ⟨hxr, hnr⟩
        by_contra hcon
        apply hnr
        unfold roots_to_remove
        refine List.mem_filter.2 ⟨List.mem_map.2 ⟨x, hxr, rfl⟩, ?_⟩
        rw [not_contains_iff]
        exact hcon
      · rcases List.mem_map.1 hx' with ⟨i, hi, hui⟩
        unfold infos_to_add at hi
        exact hui ▸ List.mem_map.2 ⟨i, (List.mem_filter.1 hi).1, rfl⟩
    have hsup : ∀ i ∈ remote_ids rs, i ∈ root_ids out' := by
      intro i hi
      rcases List.mem_map.1 hi with ⟨r, hr, hui⟩
      by_cases hc : (root_ids roots).contains r.uid = true
      · rw [contains_iff] at hc
        rcases List.mem_map.1 hc with ⟨rb, hrb, hrbu⟩
        have hmem : rb ∈ out' := by
          apply bind_roots_mono _ _ _ hb
          rw [mem_remove_roots]
          refine ⟨hrb, ?_⟩
          intro hcon
          unfold roots_to_remove at hcon
          have h2 := (List.mem_filter.1 hcon).2
          rw [not_contains_iff] at h2
          apply h2
          rw [hrbu, hui]
          exact hi
        refine hui ▸ List.mem_map.2 ⟨rb, hmem, hrbu⟩
      · have hr' : r ∈ infos_to_add roots rs := by
          unfold infos_to_add
          refine List.mem_filter.2 ⟨hr, ?_⟩
          rw [not_contains_iff]
          intro hmem
          exact hc ((contains_iff _ _).2 hmem)
        have := bind_roots_uids _ _ _ hb r hr'
        exact hui ▸ this
    have e1 : roots_to_remove out' rs = [] := by
      unfold roots_to_remove
      apply List.filter_eq_nil_iff.2
      intro i hi
      simp only [not_contains_iff, not_not]
      rcases List.mem_map.1 hi with ⟨x, hx, hxi⟩
      exact hxi ▸ hsub x hx
    have e2 : infos_to_add out' rs = [] := by
      unfold infos_to_add
      apply List.filter_eq_nil_iff.2
      intro r hr
      simp only [not_contains_iff, not_not]
      exact hsup r.uid (List.mem_map.2 ⟨r, hr, rfl⟩)
    have e3 : roots_to_add out' rs = [] := by
      unfold roots_to_add
      apply List.filter_eq_nil_iff.2
      intro i hi
      simp only [not_contains_iff, not_not]
      exact hsup i hi
    unfold update_server_roots
    simp only [e1, e2, e3]
    rw [show bind_roots (remove_roots out' []) lf repo sf sep [] =
      .ok out' from rfl]

/-- Witness for C2: the root-alignment scenario `locals = (A, B)`,
`remotes = (B, C)`; after the align the stored roots are B and C, and the
second run on the result performs no mutation. -/
theorem update_server_roots_spec_witness :
    update_server_roots
        [(⟨"/u/B", "default", "B"⟩ : RootBinding),
         (⟨"/u/C", "default", "C"⟩ : RootBinding)]
        [(⟨"B", "B", true⟩ : RemoteInfo), (⟨"C", "C", true⟩ : RemoteInfo)]
        "/u" "default" (fun n => n) '/' =
      .ok ([], [],
        [(⟨"/u/B", "default", "B"⟩ : RootBinding),
         (⟨"/u/C", "default", "C"⟩ : RootBinding)]) :=
  (update_server_roots_spec
    [⟨"/u/A", "default", "A"⟩, ⟨"/u/B", "default", "B"⟩]
    [⟨"B", "B", true⟩, ⟨"C", "C", true⟩]
    "/u" "default" (fun n => n) '/'
    ["A"] ["C"]
    [⟨"/u/B", "default", "B"⟩, ⟨"/u/C", "default", "C"⟩]
    (by rfl)).2.2.2.2

/-- The child ordering of the aggregator's descendant query:
SQL `ORDER BY local_name ASC, remote_name ASC`. -/
def child_order_le (a b : LastKnownState) : Bool :=
  if a.local_name = b.local_name then optStrLe a.remote_name b.remote_name
  else optStrLe a.local_name b.local_name

/-- The descendant-selection filter of `_pair_states_recursive`: when both
`path` and `remote_ref` are known, the OR of `parent_path == path` and
`remote_parent_ref == remote_ref`; otherwise whichever side is known; with
neither known the source raises `ValueError` (here `none`). -/
def child_filter (dp : LastKnownState) : Option (LastKnownState → Bool) :=
  match dp.path, dp.remote_ref with
  | some p, some r =>
    some (fun c => c.parent_path == some p || c.remote_parent_ref == some r)
  | some p, none => some (fun c => c.parent_path == some p)
  | none, some r => some (fun c => c.remote_parent_ref == some r)
  | none, none => none

/-- Embedding of `Controller._pair_states_recursive`. `fuel` bounds the
recursion depth (the source recurses on a finite tree); `none` models both
fuel exhaustion and the `ValueError` raised on a pair with neither `path`
nor `remote_ref`. A non-folder contributes its own pair state. A folder
collects the recursive results of its children (selected from the table by
`local_root` and the child filter, sorted by `(local_name, remote_name)`)
and then computes its displayed state by the source's loop: the loop body
inspects the FIRST entry of the concatenated results and then hits an
unconditional `break`, so only that first entry can flip the folder state
to `children_modified`. -/
def pair_states_recursive (fuel : Nat) (local_root : String)
    (db : List LastKnownState) (doc_pair : LastKnownState) :
    Option (List (LastKnownState × String)) :=
  match fuel with
  | 0 => none
  | fuel + 1 =>
    if doc_pair.folderish = false then some [(doc_pair, doc_pair.pair_state)]
    else
      match child_filter doc_pair with
      | none => none
      | some f =>
        let children := sortLe child_order_le
          ((db.filter (fun s => s.local_root == local_root)).filter f)
        match children.mapM
            (fun c => pair_states_recursive fuel local_root db c) with
        | none => none
        | some subs =>
          let results := subs.flatten
          let pair_state :=
            match results with
            | [] => doc_pair.pair_state
            | (_, sub) :: _ =>
              if sub ≠ "synchronized" then "children_modified"
              else doc_pair.pair_state
          some ((doc_pair, pair_state) :: results)

/-- The C1 folder: a synchronized folderish pair at `/f`. -/
def bugFolder : LastKnownState :=
  { baseState with path := some "/f", parent_path := some "/",
                   local_name := some "f", remote_ref := some "rf",
                   folderish := true, pair_state := "synchronized" }

/-- First child of the C1 folder (alphabetically), synchronized. -/
def bugChildA : LastKnownState :=
  { baseState with path := some "/f/a", parent_path := some "/f",
                   local_name := some "a", pair_state := "synchronized" }

/-- Second child of the C1 folder, locally modified. -/
def bugChildB : LastKnownState :=
  { baseState with path := some "/f/b", parent_path := some "/f",
                   local_name := some "b", pair_state := "locally_modified" }

/-- CLAIM C1 evaluated at the failing input: the folder at `/f` has two
descendants, the first synchronized and the second `locally_modified`, yet
the aggregator reports the folder as `synchronized` — the loop's
unconditional `break` inspects only the first descendant, contradicting the
claimed rule that any non-synchronized descendant makes the folder report
`children_modified`. -/
theorem pair_states_recursive_break_bug :
    pair_states_recursive 2 "/u/r" [bugFolder, bugChildA, bugChildB]
        bugFolder =
      some [(bugFolder, "synchronized"), (bugChildA, "synchronized"),
            (bugChildB, "locally_modified")] ∧
    ("locally_modified" : String) ≠ "synchronized" := by
  constructor
  · rfl
  · decide
